import Mathlib

/-!
Shallow embedding of the cascading-match slot engine of this repository
(the GameService component concatenated into SnowfallOverlay.tsx):
the probability thresholds, the payout table, the showcase table, the
board fill, the combination matcher, the cascade resolver and the spin
orchestrator, together with proofs about the specified behaviour.

Conventions of the embedding:
* JS numbers holding item kinds, bids and balances are modelled as `ℤ`
  (all arithmetic on them in the source is integral); values of
  Math.random are modelled as rationals in [0,1).
* Mutable fields of the GameService singleton become a `GameService`
  record threaded through the functions; the random source becomes an
  explicit `Env` value threaded the same way.
* The unbounded do/while loop of spin becomes a fuel-indexed function;
  `none` means the loop had not finished within the given fuel.
-/

set_option maxHeartbeats 2000000

/-- Random environment. `rand` is the stream of values produced by
successive Math.random calls (each lies in [0,1) in a real run) and
`shuffle` is the stream of permutations produced by the Array.sort call
inside fakeItems: its comparator returns only 1 or 0, which is an
inconsistent comparator, so the resulting order is implementation
defined; the only guarantee is that the output is a permutation of the
input, and the environment supplies that permutation. -/
structure Env where
  rand : ℕ → ℚ
  shuffle : ℕ → Equiv.Perm (Fin 30)

/-- Drop the first k random draws of the environment. -/
def Env.advance (e : Env) (k : ℕ) : Env :=
  { e with rand := fun n => e.rand (n + k) }

/-- Take the next shuffle permutation of the environment. -/
def Env.popShuffle (e : Env) : Equiv.Perm (Fin 30) × Env :=
  (e.shuffle 0, { e with shuffle := fun n => e.shuffle (n + 1) })

/-- A well-formed random source: every draw lies in [0,1), as
Math.random guarantees. -/
def EnvValid (e : Env) : Prop := ∀ n, 0 ≤ e.rand n ∧ e.rand n < 1

/-- JS Math.round, which is floor (x + 1/2) for every JS number x. -/
def jsRound (q : ℚ) : ℤ := ⌊q + 1 / 2⌋

/-- Cumulative probability thresholds itemsRanges of the source; the
decimal literals are modelled as exact rationals. -/
def itemsRanges : List ℚ :=
  [1/100, 3/100, 7/100, 16/100, 28/100, 40/100, 52/100, 68/100, 84/100, 1]

/-- JS Array.findIndex over the thresholds with the predicate
(random ≤ v) used by fillItems: the index of the first match, or -1
when no element matches. -/
def findIndexLe (r : ℚ) : List ℚ → ℤ
  | [] => -1
  | v :: rest =>
    if r ≤ v then 0
    else
      let k := findIndexLe r rest
      if k < 0 then k else k + 1

/-- Payout table itemsRewards of the source: entry i is the object for
item kind i, rendered as a (matchCount, multiplier) association list. -/
def itemsRewards : List (List (ℕ × ℕ)) :=
  [ [(4, 6), (5, 10), (6, 200)],
    [(8, 20), (9, 20), (10, 50), (11, 50), (12, 100)],
    [(8, 6), (9, 6), (10, 20), (11, 20), (12, 60)],
    [(8, 4), (9, 4), (10, 10), (11, 10), (12, 30)],
    [(8, 2), (9, 2), (10, 4), (11, 4), (12, 20)],
    [(8, 2), (9, 2), (10, 4), (11, 4), (12, 20)],
    [(8, 2), (9, 2), (10, 4), (11, 4), (12, 20)],
    [(8, 1), (9, 1), (10, 2), (11, 2), (12, 10)],
    [(8, 1), (9, 1), (10, 2), (11, 2), (12, 10)],
    [(8, 1), (9, 1), (10, 2), (11, 2), (12, 10)] ]

/-- Lookup of itemsRewards[item][key]. A missing key yields undefined in
JS, modelled as none; an item outside 0..9 would make itemsRewards[item]
undefined and the subsequent indexing throw a TypeError, which is
unreachable on well-formed boards and is modelled as none as well. -/
def rewardEntry (item : ℤ) (key : ℕ) : Option ℕ :=
  if 0 ≤ item then
    ((itemsRewards.getD item.toNat []).find? (fun q => q.1 == key)).map (fun q => q.2)
  else none

/-- Showcase table showcaseCombinations of the source, as
(itemType, amountOfGeneratedItems) pairs. -/
def showcaseCombinations : List (ℤ × ℕ) := [(0, 4), (1, 8), (2, 8), (3, 8)]

/-- The GroupedItems object built by groupItems, rendered as an
association list ordered the way a JS for-in loop visits the object:
array-index keys come in ascending numeric order. The entry order never
influences any computation below because the keys are pairwise
distinct. -/
def groupItems (items : List ℤ) : List (ℤ × ℕ) :=
  (List.insertionSort (fun a b => a ≤ b) items.dedup).map (fun k => (k, items.count k))

/-- Combination matcher findCombinations of the source. The source
computes the count cap as (item ? 12 : 6) where item is a for-in key and
hence a STRING such as "0"; every nonempty string is truthy in JS, so
the test is rendered faithfully on the decimal string of the key. (As a
consequence the cap is 12 for every kind, including kind 0: the 6 branch
is dead code.) An entry is produced when add[key] is truthy, that is,
present and nonzero. -/
def findCombinations (groups : List (ℤ × ℕ)) : List (ℤ × ℕ) :=
  groups.filterMap (fun p =>
    let key : ℕ := min p.2 (if toString p.1 = "" then 6 else 12)
    match rewardEntry p.1 key with
    | some m => if m = 0 then none else some (p.1, m)
    | none => none)

/-- Lookup math[item] in a matched-combinations association list. -/
def mathAt (math : List (ℤ × ℕ)) (v : ℤ) : Option ℕ :=
  (math.find? (fun q => q.1 == v)).map (fun q => q.2)

/-- blowItems of the source: the indexes whose item has a truthy entry
in the matched-combinations map. -/
def blowItems (sh : List ℤ) (math : List (ℤ × ℕ)) : List ℕ :=
  sh.enum.filterMap (fun p => if (mathAt math p.2).getD 0 ≠ 0 then some p.1 else none)

/-- calculateReward of the source: sum the multipliers of the worked
combinations, then multiply by the bid. -/
def calculateReward (bid : ℤ) (math : List (ℤ × ℕ)) : ℤ :=
  (math.foldl (fun acc p => acc + (p.2 : ℤ)) 0) * bid

/-- Inner loop of moveItems: scan j from i-1 down to lo for the nearest
non-empty cell further up the same column. -/
def findSrc (last : List (Option ℤ)) (lo : ℕ) : ℕ → Option ℕ
  | 0 => none
  | j + 1 =>
    if j + 1 ≤ lo then none
    else
      match last.getD j none with
      | some _ => some j
      | none => findSrc last lo j

/-- Body of the inner loops of moveItems for one target cell i of the
column whose lowest index is lo: when the cell is empty, pull the
nearest surviving item from above down into it and record the move. -/
def gravityCell (lo i : ℕ) (st : List (ℕ × ℕ) × List (Option ℤ)) :
    List (ℕ × ℕ) × List (Option ℤ) :=
  match st.2.getD i none with
  | some _ => st
  | none =>
    match findSrc st.2 lo i with
    | some j => (st.1 ++ [(j, i)], (st.2.set i (st.2.getD j none)).set j none)
    | none => st

/-- One column pass of moveItems: the cells x*5+4 down to x*5+1. -/
def gravityColumn (x : ℕ) (st : List (ℕ × ℕ) × List (Option ℤ)) :
    List (ℕ × ℕ) × List (Option ℤ) :=
  (List.range 4).foldl (fun s y => gravityCell (x * 5) (x * 5 + (4 - y)) s) st

/-- moveItems of the source: clear the blown cells, then apply gravity
per column from the left bottom corner to the right top corner. The
move object is rendered as the association list of (source, destination)
pairs in program order; its keys are pairwise distinct. -/
def moveItems (sh : List ℤ) (blow : List ℕ) :
    List (ℕ × ℕ) × List (Option ℤ) :=
  let last0 := sh.enum.map (fun p => if blow.contains p.1 then none else some p.2)
  (List.range 6).foldl (fun s x => gravityColumn x s) ([], last0)

/-- Cell k of the unsorted fakeItems array: the item kind k % 10. -/
def fakeCell (i : Fin 30) : ℤ := ((i : ℕ) % 10 : ℕ)

/-- fakeItems of the source: cell k of the unsorted array holds k % 10
(three copies of each of the ten kinds), and the array is sent through
the JS sort with the inconsistent comparator, modelled as the next
permutation of the environment. The 30 Math.random draws used as sort
keys are consumed from the stream. -/
def fakeItems (e : Env) : List ℤ × Env :=
  let p := e.popShuffle
  (((List.finRange 30).map p.1).map fakeCell, p.2.advance 30)

/-- Showcase branch of fillItems: draw one random combination index
(round of a draw times showcaseCombinations.length - 1 = 3) and write
that item into amount random cell positions; writes may collide. -/
def applyShowcase (items : List (Option ℤ)) (e : Env) : List (Option ℤ) × Env :=
  let p := showcaseCombinations.getD (jsRound (e.rand 0 * 3)).toNat (0, 0)
  let e1 := e.advance 1
  let items1 := (List.range p.2).foldl
    (fun it n => it.set (jsRound (e1.rand n * 29)).toNat (some p.1)) items
  (items1, e1.advance p.2)

/-- Weighted map of fillItems: every cell consumes one random draw;
an empty cell receives the index of the first threshold at least the
draw (-1 when the search fails), a filled cell keeps its item. -/
def weightedFillCells (items : List (Option ℤ)) (e : Env) : List ℤ × Env :=
  (items.enum.map (fun p =>
    match p.2 with
    | some v => v
    | none => findIndexLe (e.rand p.1) itemsRanges), e.advance items.length)

/-- Engine state of the GameService singleton: current user balance, the
auto-increment round id, and the amount of fails in a row. -/
structure GameService where
  balance : ℤ
  index : ℕ
  fails : ℕ

/-- fillItems of the source: when the user already failed more than 3
times in a row, reset the fails counter and apply a random showcase
combination first; then fill the empty cells with weighted random
items. -/
def fillItems (gs : GameService) (items : List (Option ℤ)) (e : Env) :
    List ℤ × GameService × Env :=
  if gs.fails > 3 then
    let q := applyShowcase items e
    let q2 := weightedFillCells q.1 q.2
    (q2.1, { gs with fails := 0 }, q2.2)
  else
    let q2 := weightedFillCells items e
    (q2.1, gs, q2.2)

/-- Balance information of a single round. -/
structure RoundBalance where
  reward : ℤ
  profit : ℤ
  balance : ℤ

/-- RoundInfo of the source. The field show of the source is renamed
show_ because show is a Lean keyword. -/
structure RoundInfo where
  id : ℕ
  bid : ℤ
  info : RoundBalance
  show_ : List ℤ
  blow : List ℕ
  last : List (Option ℤ)
  math : List (ℤ × ℕ)
  move : List (ℕ × ℕ)

/-- One iteration of the do/while body of spin: increment the round id,
fill the board (fakeItems when idle, fillItems otherwise), match, blow,
move, compute the reward and assemble the RoundInfo. Returns the round
together with the updated engine state and environment. -/
def spinStep (gs : GameService) (e : Env) (idle : Bool) (bid profit balance : ℤ)
    (items : List (Option ℤ)) : RoundInfo × GameService × Env :=
  let gs1 : GameService := { gs with index := gs.index + 1 }
  let f : List ℤ × GameService × Env :=
    if idle then
      let q := fakeItems e
      (q.1, gs1, q.2)
    else fillItems gs1 items e
  let math := findCombinations (groupItems f.1)
  let blow := blowItems f.1 math
  let mv := moveItems f.1 blow
  let reward := calculateReward bid math
  let round : RoundInfo :=
    { id := gs1.index, bid := bid,
      info := ⟨reward, profit + reward, balance + reward⟩,
      show_ := f.1, blow := blow, last := mv.2, math := math, move := mv.1 }
  (round, f.2.1, f.2.2)

/-- Loop of spin (the do/while of the source), fuel-indexed so the
unbounded JS loop becomes a total Lean function; none means the loop had
not finished within fuel iterations. Returns the accumulated rounds, the
engine state, the environment and the final local balance variable. -/
def spinLoop : ℕ → GameService → Env → Bool → ℤ → ℤ → ℤ → List (Option ℤ) →
    List RoundInfo → Option (List RoundInfo × GameService × Env × ℤ)
  | 0, _, _, _, _, _, _, _, _ => none
  | fuel + 1, gs, e, idle, bid, profit, balance, items, acc =>
    let s := spinStep gs e idle bid profit balance items
    if s.1.info.reward > 0 then
      spinLoop fuel s.2.1 s.2.2 idle bid s.1.info.profit s.1.info.balance
        s.1.last (acc ++ [s.1])
    else
      some (acc ++ [s.1], s.2.1, s.2.2, s.1.info.balance)

/-- End of spin: commit the final balance to the ledger unless idle, and
update the fails counter from the length of the produced round list. -/
def spinFinish (idle : Bool) (gs1 : GameService) (rounds : List RoundInfo)
    (bal : ℤ) : GameService :=
  let gs2 := if idle then gs1 else { gs1 with balance := bal }
  if rounds.length = 1 then { gs2 with fails := gs2.fails + 1 }
  else { gs2 with fails := 0 }

/-- spin of the source: run the cascade loop starting from an all-empty
board, then commit and update the fails counter. -/
def spin (gs : GameService) (bid : ℤ) (e : Env) (fuel : ℕ) :
    Option (List RoundInfo × GameService × Env) :=
  let idle : Bool := decide (bid ≤ 0) || decide (gs.balance < bid)
  match spinLoop fuel gs e idle bid 0 (gs.balance - bid) (List.replicate 30 none) [] with
  | none => none
  | some (rounds, gs1, e1, bal) =>
    some (rounds, spinFinish idle gs1 rounds bal, e1)

/-! ### General helpers -/

/-- Invariant preservation along a left fold. -/
theorem foldl_preserve {α β : Type _} {P : β → Prop} {f : β → α → β} :
    ∀ (l : List α) (s : β), (∀ s a, a ∈ l → P s → P (f s a)) → P s → P (l.foldl f s)
  | [], _, _, h => h
  | a :: l, s, hf, h =>
    foldl_preserve l (f s a) (fun s b hb => hf s b (List.mem_cons_of_mem _ hb))
      (hf s a (List.mem_cons_self _ _) h)

theorem foldl_add_eq (l : List (ℤ × ℕ)) :
    ∀ a : ℤ, l.foldl (fun acc p => acc + (p.2 : ℤ)) a = a + (l.map (fun p => (p.2 : ℤ))).sum := by
  induction l with
  | nil => intro a; simp
  | cons p l ih => intro a; simp [ih]; ring

/-! ### C7: calculateReward -/

/-- C7: for every bid and every matched-group map, calculateReward
returns the bid multiplied by the sum of the multipliers of every
matched group of the map; in particular a bid of 10 with the single
matched group 0 ↦ 6 yields 60. -/
theorem C7_calculateReward :
    (∀ (bid : ℤ) (math : List (ℤ × ℕ)),
      calculateReward bid math = bid * (math.map (fun p => (p.2 : ℤ))).sum) ∧
    calculateReward 10 [((0 : ℤ), 6)] = 60 := by
  constructor
  · intro bid math
    unfold calculateReward
    rw [foldl_add_eq]
    ring
  · decide

/-! ### C1: the kind-0 cap -/

/-- A fully-filled board that holds exactly 7 cells of kind 0 and no
other potential combination: 7 zeros, 7 ones, 7 twos, 7 threes, 2 fours. -/
def board7 : List ℤ :=
  List.replicate 7 0 ++ List.replicate 7 1 ++ List.replicate 7 2 ++
    List.replicate 7 3 ++ [4, 4]

/-- C1 (evaluation at the failing input): on a 30-cell board with exactly
7 cells of kind 0 the matcher credits nothing at all - the for-in key is
the truthy string "0", so the cap applied to kind 0 is 12, the lookup
happens at count 7 and the payout object of kind 0 has no entry there.
Under the documented cap of 6 the lookup would have happened at count 6,
whose multiplier is 200. -/
theorem C1_seven_zeros_credit_nothing :
    board7.length = 30 ∧ board7.count 0 = 7 ∧
    findCombinations (groupItems board7) = [] ∧
    rewardEntry 0 (min (board7.count 0) 6) = some 200 := by
  decide

/-! ### C6: moves never leave their column -/

theorem findSrc_eq_some {last : List (Option ℤ)} {lo : ℕ} :
    ∀ {i j : ℕ}, findSrc last lo i = some j →
      lo ≤ j ∧ j < i ∧ last.getD j none ≠ none := by
  intro i
  induction i with
  | zero => intro j h; simp [findSrc] at h
  | succ n ih =>
    intro j h
    unfold findSrc at h
    by_cases hlo : n + 1 ≤ lo
    · simp [hlo] at h
    · simp only [if_neg hlo] at h
      cases hg : last.getD n none with
      | some v =>
        rw [hg] at h
        injection h with h
        subst h
        exact ⟨by omega, by omega, fun hc => by rw [hg] at hc; exact Option.noConfusion hc⟩
      | none =>
        rw [hg] at h
        obtain ⟨h1, h2, h3⟩ := ih h
        exact ⟨h1, by omega, h3⟩

theorem gravityCell_moves {lo i : ℕ} {st : List (ℕ × ℕ) × List (Option ℤ)}
    {p : ℕ × ℕ} (hp : p ∈ (gravityCell lo i st).1) :
    p ∈ st.1 ∨ (lo ≤ p.1 ∧ p.1 < i ∧ p.2 = i) := by
  unfold gravityCell at hp
  cases hg : st.2.getD i none with
  | some v => rw [hg] at hp; exact Or.inl hp
  | none =>
    rw [hg] at hp
    cases hf : findSrc st.2 lo i with
    | some j =>
      rw [hf] at hp
      rcases List.mem_append.mp hp with h | h
      · exact Or.inl h
      · obtain ⟨h1, h2, _⟩ := findSrc_eq_some hf
        simp only [List.mem_singleton] at h
        subst h
        exact Or.inr ⟨h1, h2, rfl⟩
    | none => rw [hf] at hp; exact Or.inl hp

/-- The column pass written out: the foldl over List.range 4 processes
the cells x*5+4, x*5+3, x*5+2, x*5+1 in this order. -/
theorem gravityColumn_eq (x : ℕ) (st : List (ℕ × ℕ) × List (Option ℤ)) :
    gravityColumn x st =
      gravityCell (x * 5) (x * 5 + 1)
        (gravityCell (x * 5) (x * 5 + 2)
          (gravityCell (x * 5) (x * 5 + 3)
            (gravityCell (x * 5) (x * 5 + 4) st))) := by
  simp [gravityColumn, List.range_succ]

/-- The board pass written out: the foldl over List.range 6 processes the
columns 0 to 5 in this order, starting from the blown board. -/
theorem moveItems_eq (sh : List ℤ) (blow : List ℕ) :
    moveItems sh blow =
      gravityColumn 5 (gravityColumn 4 (gravityColumn 3 (gravityColumn 2
        (gravityColumn 1 (gravityColumn 0
          ([], sh.enum.map (fun p =>
            if blow.contains p.1 then none else some p.2))))))) := by
  simp [moveItems, List.range_succ]

theorem gravityColumn_moves {x : ℕ} {st : List (ℕ × ℕ) × List (Option ℤ)}
    {p : ℕ × ℕ} (hp : p ∈ (gravityColumn x st).1) :
    p ∈ st.1 ∨ (x * 5 ≤ p.1 ∧ p.1 < p.2 ∧ p.2 ≤ x * 5 + 4) := by
  rw [gravityColumn_eq] at hp
  rcases gravityCell_moves hp with hp | ⟨h1, h2, h3⟩
  · rcases gravityCell_moves hp with hp | ⟨h1, h2, h3⟩
    · rcases gravityCell_moves hp with hp | ⟨h1, h2, h3⟩
      · rcases gravityCell_moves hp with hp | ⟨h1, h2, h3⟩
        · exact Or.inl hp
        · exact Or.inr ⟨h1, by omega, by omega⟩
      · exact Or.inr ⟨h1, by omega, by omega⟩
    · exact Or.inr ⟨h1, by omega, by omega⟩
  · exact Or.inr ⟨h1, by omega, by omega⟩

/-- C6: every entry (from, to) of the move map produced by moveItems
satisfies from / 5 = to / 5 (survivors never cross columns) and
from ≠ to (only actual relocations are recorded). -/
theorem C6_moves_in_column (sh : List ℤ) (blow : List ℕ) :
    ∀ p ∈ (moveItems sh blow).1, p.1 / 5 = p.2 / 5 ∧ p.1 ≠ p.2 := by
  intro p hp
  rw [moveItems_eq] at hp
  rcases gravityColumn_moves hp with hp | ⟨h1, h2, h3⟩
  on_goal 2 => exact ⟨by omega, by omega⟩
  rcases gravityColumn_moves hp with hp | ⟨h1, h2, h3⟩
  on_goal 2 => exact ⟨by omega, by omega⟩
  rcases gravityColumn_moves hp with hp | ⟨h1, h2, h3⟩
  on_goal 2 => exact ⟨by omega, by omega⟩
  rcases gravityColumn_moves hp with hp | ⟨h1, h2, h3⟩
  on_goal 2 => exact ⟨by omega, by omega⟩
  rcases gravityColumn_moves hp with hp | ⟨h1, h2, h3⟩
  on_goal 2 => exact ⟨by omega, by omega⟩
  rcases gravityColumn_moves hp with hp | ⟨h1, h2, h3⟩
  on_goal 2 => exact ⟨by omega, by omega⟩
  simp at hp

/-- C6 witness: a concrete board where blowing cell 4 moves cell 3 down
into it. -/
theorem C6_witness :
    ((3, 4) ∈ (moveItems ((List.range 30).map (fun k => (k : ℤ))) [4]).1) ∧
    (3 / 5 = 4 / 5 ∧ 3 ≠ 4) :=
  ⟨by decide,
    C6_moves_in_column ((List.range 30).map (fun k => (k : ℤ))) [4] (3, 4) (by decide)⟩

/-! ### C10: fillItems only produces symbol kinds 0..9 -/

/-- The environment whose draws are all 0 and whose shuffles are all the
identity, used to instantiate theorems at a concrete random source. -/
def envZero : Env := ⟨fun _ => 0, fun _ => Equiv.refl _⟩

theorem envZero_valid : EnvValid envZero :=
  fun _ => ⟨le_refl 0, by norm_num [envZero]⟩

theorem EnvValid.advance {e : Env} (he : EnvValid e) (k : ℕ) :
    EnvValid (e.advance k) := fun n => he (n + k)

theorem findIndexLe_found {r : ℚ} :
    ∀ {l : List ℚ}, (∃ v ∈ l, r ≤ v) →
      0 ≤ findIndexLe r l ∧ findIndexLe r l < l.length := by
  intro l
  induction l with
  | nil => rintro ⟨v, hv, -⟩; simp at hv
  | cons a l ih =>
    rintro ⟨v, hv, hr⟩
    unfold findIndexLe
    by_cases h : r ≤ a
    · simp [h]
    · simp only [if_neg h]
      have hex : ∃ v ∈ l, r ≤ v := by
        rcases List.mem_cons.mp hv with rfl | hm
        · exact absurd hr h
        · exact ⟨v, hm, hr⟩
      obtain ⟨h1, h2⟩ := ih hex
      rw [if_neg (by omega)]
      simp only [List.length_cons]
      push_cast
      omega

theorem jsRound_bounds {r : ℚ} (h0 : 0 ≤ r) (h1 : r < 1) (m : ℕ) :
    0 ≤ jsRound (r * m) ∧ jsRound (r * m) ≤ m := by
  unfold jsRound
  constructor
  · apply Int.floor_nonneg.mpr
    positivity
  · have hm : r * m ≤ m := by
      calc r * m ≤ 1 * m := by
            apply mul_le_mul_of_nonneg_right (le_of_lt h1) (by positivity)
        _ = m := one_mul _
    have : (⌊r * m + 1 / 2⌋ : ℤ) < (m : ℤ) + 1 := by
      apply Int.floor_lt.mpr
      push_cast
      linarith
    omega

theorem showcase_pair_valid (k : ℕ) :
    0 ≤ (showcaseCombinations.getD k (0, 0)).1 ∧
      (showcaseCombinations.getD k (0, 0)).1 < 10 := by
  match k with
  | 0 => decide
  | 1 => decide
  | 2 => decide
  | 3 => decide
  | n + 4 =>
    have : showcaseCombinations.getD (n + 4) (0, 0) = (0, 0) := by
      simp [showcaseCombinations, List.getD]
    rw [this]
    decide

theorem applyShowcase_cells {items : List (Option ℤ)} {e : Env}
    (h : ∀ v : ℤ, some v ∈ items → 0 ≤ v ∧ v < 10) :
    ∀ v : ℤ, some v ∈ (applyShowcase items e).1 → 0 ≤ v ∧ v < 10 := by
  intro v hv
  simp only [applyShowcase] at hv
  revert v hv
  apply foldl_preserve
    (P := fun it : List (Option ℤ) => ∀ v : ℤ, some v ∈ it → 0 ≤ v ∧ v < 10)
  · intro s n _ hs v hv
    rcases List.mem_or_eq_of_mem_set hv with hm | he
    · exact hs v hm
    · injection he with he
      subst he
      exact showcase_pair_valid _
  · exact h

theorem applyShowcase_env_valid {items : List (Option ℤ)} {e : Env}
    (he : EnvValid e) : EnvValid (applyShowcase items e).2 := by
  simp only [applyShowcase]
  exact (he.advance 1).advance _

theorem weightedFillCells_mem {items : List (Option ℤ)} {e : Env}
    (he : EnvValid e) (h : ∀ v : ℤ, some v ∈ items → 0 ≤ v ∧ v < 10) :
    ∀ c ∈ (weightedFillCells items e).1, 0 ≤ c ∧ c < 10 := by
  intro c hc
  simp only [weightedFillCells] at hc
  rcases List.mem_map.mp hc with ⟨p, hp, rfl⟩
  have hp2 : items.get? p.1 = some p.2 := List.mem_enum_iff_get?.mp hp
  have hmem : p.2 ∈ items := List.get?_mem hp2
  cases hq : p.2 with
  | some v =>
    simp only [hq]
    exact h v (hq ▸ hmem)
  | none =>
    simp only [hq]
    have hfound : ∃ v ∈ itemsRanges, e.rand p.1 ≤ v := by
      refine ⟨1, by simp [itemsRanges], le_of_lt (he p.1).2⟩
    obtain ⟨h1, h2⟩ := findIndexLe_found hfound
    refine ⟨h1, ?_⟩
    have : (itemsRanges.length : ℤ) = 10 := by decide
    omega

theorem fillItems_cells {gs : GameService} {items : List (Option ℤ)} {e : Env}
    (he : EnvValid e) (h : ∀ v : ℤ, some v ∈ items → 0 ≤ v ∧ v < 10) :
    ∀ c ∈ (fillItems gs items e).1, 0 ≤ c ∧ c < 10 := by
  unfold fillItems
  by_cases hf : gs.fails > 3
  · simp only [if_pos hf]
    exact weightedFillCells_mem (applyShowcase_env_valid he) (applyShowcase_cells h)
  · simp only [if_neg hf]
    exact weightedFillCells_mem he h

/-- C10: with a well-formed random source (all draws in [0,1)) and a
board whose filled cells hold symbols, every cell returned by fillItems
holds a symbol kind in [0,9]; the first-threshold search always lands on
an index in [0,9] (its -1 failure branch is unreachable because the
thresholds end at exactly 1 and every draw is strictly below 1); and
every showcase write targets an index in [0,29]. -/
theorem C10_fillItems_cells_in_range (gs : GameService)
    (items : List (Option ℤ)) (e : Env) (he : EnvValid e)
    (h : ∀ v : ℤ, some v ∈ items → 0 ≤ v ∧ v < 10) :
    (∀ c ∈ (fillItems gs items e).1, 0 ≤ c ∧ c < 10) ∧
    (∀ r : ℚ, 0 ≤ r → r < 1 →
      0 ≤ findIndexLe r itemsRanges ∧ findIndexLe r itemsRanges ≤ 9) ∧
    (∀ r : ℚ, 0 ≤ r → r < 1 →
      0 ≤ jsRound (r * 29) ∧ (jsRound (r * 29)).toNat ≤ 29) := by
  refine ⟨fillItems_cells he h, ?_, ?_⟩
  · intro r _ h1
    obtain ⟨hl, hr⟩ := findIndexLe_found
      (r := r) (l := itemsRanges) ⟨1, by simp [itemsRanges], le_of_lt h1⟩
    have : (itemsRanges.length : ℤ) = 10 := by decide
    exact ⟨hl, by omega⟩
  · intro r h0 h1
    have hb := jsRound_bounds h0 h1 29
    push_cast at hb
    exact ⟨hb.1, by omega⟩

/-- C10 witness: the range theorem applied to a concrete engine state,
the all-empty board, and the all-zero environment. -/
theorem C10_witness :
    EnvValid envZero ∧
    (∀ c ∈ (fillItems ⟨100, 0, 0⟩ (List.replicate 30 none) envZero).1,
      0 ≤ c ∧ c < 10) :=
  ⟨envZero_valid,
    (C10_fillItems_cells_in_range ⟨100, 0, 0⟩ (List.replicate 30 none) envZero
      envZero_valid (by simp)).1⟩

/-! ### C5: matcher lower bounds and the cap at 12 -/

theorem mem_groupItems {items : List ℤ} {k : ℤ} {a : ℕ} :
    (k, a) ∈ groupItems items ↔ k ∈ items ∧ a = items.count k := by
  unfold groupItems
  rw [List.mem_map]
  constructor
  · rintro ⟨k', hk', he⟩
    simp only [Prod.mk.injEq] at he
    obtain ⟨rfl, rfl⟩ := he
    exact ⟨List.mem_dedup.mp (((List.perm_insertionSort _ _).mem_iff).mp hk'), rfl⟩
  · rintro ⟨hk, rfl⟩
    exact ⟨k, ((List.perm_insertionSort _ _).mem_iff).mpr (List.mem_dedup.mpr hk), rfl⟩

theorem rewardEntry_eq_some {k : ℤ} {key m : ℕ} (h : rewardEntry k key = some m) :
    0 ≤ k ∧ (key, m) ∈ itemsRewards.getD k.toNat [] := by
  unfold rewardEntry at h
  by_cases hk : (0 : ℤ) ≤ k
  · rw [if_pos hk] at h
    rcases Option.map_eq_some'.mp h with ⟨q, hq, hm⟩
    have hqm := List.mem_of_find?_eq_some hq
    have hqe := List.find?_some hq
    have hq1 : q.1 = key := by simpa using hqe
    refine ⟨hk, ?_⟩
    have hqp : q = (key, m) := by
      cases q
      simp_all
    rw [← hqp]
    exact hqm
  · rw [if_neg hk] at h
    cases h

theorem rewardEntry_key_range {k : ℤ} {key m : ℕ}
    (hk10 : k < 10) (h : rewardEntry k key = some m) :
    0 ≤ k ∧ (k = 0 → 4 ≤ key ∧ key ≤ 6) ∧ (k ≠ 0 → 8 ≤ key ∧ key ≤ 12) ∧ m ≠ 0 := by
  obtain ⟨hk0, hmem⟩ := rewardEntry_eq_some h
  refine ⟨hk0, ?_⟩
  interval_cases k <;> fin_cases hmem <;>
    exact ⟨fun hk => by omega, fun hk => by omega, by omega⟩

/-- A fully-filled board with 15 cells of kind 1 and no other potential
combination: 15 ones, 7 twos, 7 threes, 1 four. -/
def board15 : List ℤ :=
  List.replicate 15 1 ++ List.replicate 7 2 ++ List.replicate 7 3 ++ [4]

/-- C5: on a fully-filled 30-cell board the matcher never credits a kind
whose tally is below 4 (kind 0) or below 8 (kinds 1-9); for kinds 1-9 a
tally above 12 is credited exactly as the table entry at 12; and in
particular a board with 15 cells of kind 1 credits kind 1 with
multiplier 100. -/
theorem C5_matcher_caps :
    (∀ items : List ℤ, items.length = 30 → (∀ v ∈ items, 0 ≤ v ∧ v < 10) →
      ∀ k m, (k, m) ∈ findCombinations (groupItems items) →
        4 ≤ items.count k ∧ (k ≠ 0 → 8 ≤ items.count k)) ∧
    (∀ items : List ℤ, ∀ k : ℤ, 1 ≤ k → k ≤ 9 → 12 < items.count k →
      ∀ m : ℕ,
        ((k, m) ∈ findCombinations (groupItems items) ↔ rewardEntry k 12 = some m)) ∧
    board15.length = 30 ∧ board15.count 1 = 15 ∧
    (1, 100) ∈ findCombinations (groupItems board15) := by
  have key_of_mem : ∀ (items : List ℤ) (k : ℤ) (m : ℕ),
      (k, m) ∈ findCombinations (groupItems items) →
      k ∈ items ∧
        rewardEntry k (min (items.count k) (if toString k = "" then 6 else 12)) = some m := by
    intro items k m hmem
    rcases List.mem_filterMap.mp hmem with ⟨p, hp, hf⟩
    obtain ⟨hkin, hcnt⟩ := mem_groupItems.mp hp
    dsimp only at hf
    cases hre : rewardEntry p.1 (min p.2 (if toString p.1 = "" then 6 else 12)) with
    | none => rw [hre] at hf; cases hf
    | some m' =>
      rw [hre] at hf
      have hf2 : (if m' = 0 then none else some (p.1, m')) = some (k, m) := hf
      by_cases hm0 : m' = 0
      · rw [if_pos hm0] at hf2; cases hf2
      · rw [if_neg hm0] at hf2
        injection hf2 with hf2
        simp only [Prod.mk.injEq] at hf2
        obtain ⟨h1, h2⟩ := hf2
        subst h1
        subst h2
        rw [hcnt] at hre
        exact ⟨hkin, hre⟩
  refine ⟨?_, ?_, by decide, by decide, by decide⟩
  · intro items _ hvalid k m hmem
    obtain ⟨hkin, hre⟩ := key_of_mem items k m hmem
    have hk10 := (hvalid k hkin).2
    obtain ⟨-, h0, hne, -⟩ := rewardEntry_key_range hk10 hre
    have hmin : min (items.count k) (if toString k = "" then 6 else 12) ≤ items.count k :=
      Nat.min_le_left _ _
    by_cases hk0 : k = 0
    · have := h0 hk0
      exact ⟨by omega, fun hc => absurd hk0 hc⟩
    · have := hne hk0
      exact ⟨by omega, fun _ => by omega⟩
  · intro items k hk1 hk9 hcnt m
    have hcap : (if toString k = "" then (6 : ℕ) else 12) = 12 := by
      interval_cases k <;> decide
    have hm12 : min (items.count k) (if toString k = "" then (6 : ℕ) else 12) = 12 := by
      rw [hcap]
      omega
    constructor
    · intro hmem
      obtain ⟨-, hre⟩ := key_of_mem items k m hmem
      rwa [hm12] at hre
    · intro hre
      have hkin : k ∈ items := List.count_pos_iff.mp (by omega)
      have hmne : m ≠ 0 := (rewardEntry_key_range (by omega) hre).2.2.2
      apply List.mem_filterMap.mpr
      refine ⟨(k, items.count k), mem_groupItems.mpr ⟨hkin, rfl⟩, ?_⟩
      dsimp only
      rw [hm12, hre]
      show (if m = 0 then none else some (k, m)) = some (k, m)
      rw [if_neg hmne]

/-- C5 witness: the cap-at-12 characterization applied to the concrete
board with 15 cells of kind 1. -/
theorem C5_witness :
    (1 ≤ (1 : ℤ) ∧ (1 : ℤ) ≤ 9 ∧ 12 < board15.count 1) ∧
    ((1, 100) ∈ findCombinations (groupItems board15) ↔
      rewardEntry 1 12 = some 100) :=
  ⟨by decide,
    C5_matcher_caps.2.1 board15 1 (by decide) (by decide) (by decide) 100⟩

/-! ### C3: idle spins -/

theorem fakeItems_perm (e : Env) :
    (fakeItems e).1.Perm ((List.finRange 30).map fakeCell) := by
  unfold fakeItems
  dsimp only
  apply List.Perm.map
  apply List.perm_of_nodup_nodup_toFinset_eq
  · exact (List.nodup_finRange 30).map (e.shuffle 0).injective
  · exact List.nodup_finRange 30
  · apply Finset.ext
    intro j
    constructor
    · intro _
      simp [List.mem_toFinset]
    · intro _
      rw [List.mem_toFinset]
      exact List.mem_map.mpr
        ⟨(e.shuffle 0).symm j, List.mem_finRange _,
          (e.shuffle 0).apply_symm_apply j⟩

theorem groupItems_perm {l1 l2 : List ℤ} (h : l1.Perm l2) :
    groupItems l1 = groupItems l2 := by
  unfold groupItems
  have hd : l1.dedup.Perm l2.dedup := h.dedup
  have hs : List.insertionSort (fun a b => a ≤ b) l1.dedup
      = List.insertionSort (fun a b => a ≤ b) l2.dedup :=
    List.eq_of_perm_of_sorted
      ((List.perm_insertionSort _ _).trans
        (hd.trans (List.perm_insertionSort _ _).symm))
      (List.sorted_insertionSort _ _) (List.sorted_insertionSort _ _)
  rw [hs]
  apply List.map_congr_left
  intro k _
  rw [h.count_eq]

/-- An idle fill never contains a worked combination: it holds exactly 3
copies of each kind, below every match threshold. -/
theorem fake_no_math (e : Env) :
    findCombinations (groupItems (fakeItems e).1) = [] := by
  rw [groupItems_perm (fakeItems_perm e)]
  decide

theorem calculateReward_nil (bid : ℤ) : calculateReward bid [] = 0 := by
  simp [calculateReward]

theorem spinStep_idle_reward (gs : GameService) (e : Env)
    (bid profit balance : ℤ) (items : List (Option ℤ)) :
    (spinStep gs e true bid profit balance items).1.info.reward = 0 := by
  simp only [spinStep, if_pos]
  exact (fake_no_math e) ▸ calculateReward_nil bid

theorem spinStep_idle_show (gs : GameService) (e : Env)
    (bid profit balance : ℤ) (items : List (Option ℤ)) :
    (spinStep gs e true bid profit balance items).1.show_ = (fakeItems e).1 := by
  simp only [spinStep, if_pos]

theorem spinStep_idle_balance (gs : GameService) (e : Env)
    (bid profit balance : ℤ) (items : List (Option ℤ)) :
    (spinStep gs e true bid profit balance items).2.1.balance = gs.balance := by
  simp only [spinStep, if_pos]

/-- C3: a spin whose bid is nonpositive or above the balance runs in
idle mode: it returns exactly one round, that round's reward is 0, its
board is the demo fill, and the ledger balance is unchanged. -/
theorem C3_invalid_bid_idle (gs : GameService) (bid : ℤ) (e : Env) (fuel : ℕ)
    (hidle : bid ≤ 0 ∨ gs.balance < bid) (hfuel : 1 ≤ fuel) :
    ∃ rounds gs2 e2, spin gs bid e fuel = some (rounds, gs2, e2) ∧
      rounds.length = 1 ∧ (∀ r ∈ rounds, r.info.reward = 0) ∧
      (∀ r ∈ rounds, r.show_ = (fakeItems e).1) ∧
      gs2.balance = gs.balance := by
  obtain ⟨n, rfl⟩ : ∃ n, fuel = n + 1 := ⟨fuel - 1, by omega⟩
  have hb : (decide (bid ≤ 0) || decide (gs.balance < bid)) = true := by
    rcases hidle with h | h <;> simp [h]
  set s := spinStep gs e true bid 0 (gs.balance - bid) (List.replicate 30 none)
    with hs
  have hrw : s.1.info.reward = 0 := by
    rw [hs]
    exact spinStep_idle_reward gs e bid 0 (gs.balance - bid) (List.replicate 30 none)
  have hloop : spinLoop (n + 1) gs e true bid 0 (gs.balance - bid)
      (List.replicate 30 none) [] =
      some ([s.1], s.2.1, s.2.2, s.1.info.balance) := by
    simp only [spinLoop]
    rw [← hs, if_neg (by omega)]
    rfl
  refine ⟨[s.1], spinFinish true s.2.1 [s.1] s.1.info.balance, s.2.2,
    ?_, rfl, ?_, ?_, ?_⟩
  · simp only [spin]
    rw [hb, hloop]
  · intro r hr
    rw [List.mem_singleton] at hr
    subst hr
    exact hrw
  · intro r hr
    rw [List.mem_singleton] at hr
    subst hr
    rw [hs]
    exact spinStep_idle_show gs e bid 0 (gs.balance - bid) (List.replicate 30 none)
  · show (spinFinish true s.2.1 [s.1] s.1.info.balance).balance = gs.balance
    have hbal : s.2.1.balance = gs.balance := by
      rw [hs]
      exact spinStep_idle_balance gs e bid 0 (gs.balance - bid)
        (List.replicate 30 none)
    simp only [spinFinish, if_pos, List.length_singleton, if_true]
    exact hbal

/-- C3 witness: the idle-spin theorem applied to a zero bid at balance
100 with the all-zero environment. -/
theorem C3_witness :
    ((0 : ℤ) ≤ 0 ∨ (100 : ℤ) < 0) ∧
    (∃ rounds gs2 e2,
      spin ⟨100, 0, 0⟩ 0 envZero 1 = some (rounds, gs2, e2) ∧
      rounds.length = 1 ∧ (∀ r ∈ rounds, r.info.reward = 0) ∧
      (∀ r ∈ rounds, r.show_ = (fakeItems envZero).1) ∧
      gs2.balance = (100 : ℤ)) :=
  ⟨Or.inl le_rfl,
    C3_invalid_bid_idle ⟨100, 0, 0⟩ 0 envZero 1 (Or.inl le_rfl) le_rfl⟩

/-! ### C8: round ids are fresh and strictly increasing -/

theorem spinStep_id (gs : GameService) (e : Env) (idle : Bool)
    (bid profit balance : ℤ) (items : List (Option ℤ)) :
    (spinStep gs e idle bid profit balance items).1.id = gs.index + 1 := by
  cases idle <;> simp [spinStep]

theorem spinStep_index (gs : GameService) (e : Env) (idle : Bool)
    (bid profit balance : ℤ) (items : List (Option ℤ)) :
    (spinStep gs e idle bid profit balance items).2.1.index = gs.index + 1 := by
  cases idle <;> simp [spinStep, fillItems] <;> split <;> rfl

theorem spinFinish_index (idle : Bool) (gs1 : GameService)
    (rounds : List RoundInfo) (bal : ℤ) :
    (spinFinish idle gs1 rounds bal).index = gs1.index := by
  simp only [spinFinish]
  split <;> split <;> rfl

theorem spin_inv {gs : GameService} {bid : ℤ} {e : Env} {fuel : ℕ}
    {rounds : List RoundInfo} {gs1 : GameService} {e1 : Env}
    (h : spin gs bid e fuel = some (rounds, gs1, e1)) :
    ∃ gsl bal,
      spinLoop fuel gs e (decide (bid ≤ 0) || decide (gs.balance < bid)) bid 0
        (gs.balance - bid) (List.replicate 30 none) [] =
        some (rounds, gsl, e1, bal) ∧
      gs1 = spinFinish (decide (bid ≤ 0) || decide (gs.balance < bid))
        gsl rounds bal := by
  simp only [spin] at h
  cases hl : spinLoop fuel gs e (decide (bid ≤ 0) || decide (gs.balance < bid))
      bid 0 (gs.balance - bid) (List.replicate 30 none) [] with
  | none => rw [hl] at h; cases h
  | some q =>
    obtain ⟨rounds', gsl, el, bal⟩ := q
    rw [hl] at h
    injection h with h
    simp only [Prod.mk.injEq] at h
    obtain ⟨h1, h2, h3⟩ := h
    subst h1
    subst h3
    exact ⟨gsl, bal, rfl, h2.symm⟩

theorem spinLoop_ids : ∀ (fuel : ℕ) (gs : GameService) (e : Env) (idle : Bool)
    (bid profit balance : ℤ) (items : List (Option ℤ)) (acc : List RoundInfo)
    (out : List RoundInfo) (gsf : GameService) (ef : Env) (balf : ℤ) (low : ℕ),
    low ≤ gs.index →
    (∀ r ∈ acc, low < r.id ∧ r.id ≤ gs.index) →
    List.Chain' (fun a b => a.id < b.id) acc →
    spinLoop fuel gs e idle bid profit balance items acc =
      some (out, gsf, ef, balf) →
    gs.index ≤ gsf.index ∧ (∀ r ∈ out, low < r.id ∧ r.id ≤ gsf.index) ∧
      List.Chain' (fun a b => a.id < b.id) out := by
  intro fuel
  induction fuel with
  | zero =>
    intro gs e idle bid profit balance items acc out gsf ef balf low _ _ _ hl
    cases hl
  | succ n ih =>
    intro gs e idle bid profit balance items acc out gsf ef balf low
      hlow hacc hch hl
    simp only [spinLoop] at hl
    have hid := spinStep_id gs e idle bid profit balance items
    have hix := spinStep_index gs e idle bid profit balance items
    have hacc1 : ∀ r ∈ acc ++ [(spinStep gs e idle bid profit balance items).1],
        low < r.id ∧
          r.id ≤ (spinStep gs e idle bid profit balance items).2.1.index := by
      intro r hr
      rcases List.mem_append.mp hr with hr | hr
      · obtain ⟨ha, hb⟩ := hacc r hr
        omega
      · rw [List.mem_singleton] at hr
        subst hr
        omega
    have hch1 : List.Chain' (fun a b => a.id < b.id)
        (acc ++ [(spinStep gs e idle bid profit balance items).1]) := by
      rw [List.chain'_append]
      refine ⟨hch, List.chain'_singleton _, ?_⟩
      intro x hx y hy
      rw [List.head?_cons] at hy
      injection hy with hy
      subst hy
      have hxm : x ∈ acc := List.mem_of_getLast?_eq_some hx
      obtain ⟨-, hb⟩ := hacc x hxm
      omega
    by_cases hr : (spinStep gs e idle bid profit balance items).1.info.reward > 0
    · rw [if_pos hr] at hl
      obtain ⟨h1, h2, h3⟩ := ih _ _ _ _ _ _ _ _ _ _ _ _ _ (by omega) hacc1 hch1 hl
      exact ⟨by omega, h2, h3⟩
    · rw [if_neg hr] at hl
      injection hl with hl
      simp only [Prod.mk.injEq] at hl
      obtain ⟨ho, hg, -, -⟩ := hl
      subst ho
      subst hg
      exact ⟨by omega, hacc1, hch1⟩

/-- C8: within one spin the round ids are strictly increasing and lie in
the interval (index before the spin, index after the spin]; hence every
round id issued by a later spin call on the same engine is strictly
greater than every round id issued by an earlier call. -/
theorem C8_round_ids (gs : GameService) (bid : ℤ) (e : Env) (fuel : ℕ)
    (rounds : List RoundInfo) (gs1 : GameService) (e1 : Env)
    (bid2 : ℤ) (e2 : Env) (fuel2 : ℕ) (rounds2 : List RoundInfo)
    (gs2 : GameService) (e2f : Env)
    (h1 : spin gs bid e fuel = some (rounds, gs1, e1))
    (h2 : spin gs1 bid2 e2 fuel2 = some (rounds2, gs2, e2f)) :
    List.Chain' (fun a b => a.id < b.id) rounds ∧
    List.Chain' (fun a b => a.id < b.id) rounds2 ∧
    (∀ a ∈ rounds, gs.index < a.id ∧ a.id ≤ gs1.index) ∧
    (∀ a ∈ rounds, ∀ b ∈ rounds2, a.id < b.id) := by
  obtain ⟨gsl, bal, hl, hfin⟩ := spin_inv h1
  obtain ⟨gsl2, bal2, hl2, hfin2⟩ := spin_inv h2
  obtain ⟨-, hin, hchain⟩ := spinLoop_ids _ _ _ _ _ _ _ _ _ _ _ _ _ gs.index
    le_rfl (by intro r hr; cases hr) List.chain'_nil hl
  obtain ⟨-, hin2, hchain2⟩ := spinLoop_ids _ _ _ _ _ _ _ _ _ _ _ _ _ gs1.index
    le_rfl (by intro r hr; cases hr) List.chain'_nil hl2
  have hix1 : gs1.index = gsl.index := by rw [hfin, spinFinish_index]
  refine ⟨hchain, hchain2, ?_, ?_⟩
  · intro a ha
    obtain ⟨hlt, hle⟩ := hin a ha
    exact ⟨hlt, by omega⟩
  · intro a ha b hb
    obtain ⟨-, hle⟩ := hin a ha
    obtain ⟨hlt2, -⟩ := hin2 b hb
    omega

/-- First concrete spin (idle, bid 0) used by the C8 witness. -/
def w8a : List RoundInfo × GameService × Env :=
  (spin ⟨100, 0, 0⟩ 0 envZero 1).getD ([], ⟨100, 0, 0⟩, envZero)

/-- Second concrete spin, continuing from the first. -/
def w8b : List RoundInfo × GameService × Env :=
  (spin w8a.2.1 0 w8a.2.2 1).getD ([], w8a.2.1, w8a.2.2)

/-- C8 witness: the round-id theorem applied to two successive concrete
idle spins. -/
theorem C8_witness :
    spin ⟨100, 0, 0⟩ 0 envZero 1 = some (w8a.1, w8a.2.1, w8a.2.2) ∧
    spin w8a.2.1 0 w8a.2.2 1 = some (w8b.1, w8b.2.1, w8b.2.2) ∧
    (List.Chain' (fun a b => a.id < b.id) w8a.1 ∧
      List.Chain' (fun a b => a.id < b.id) w8b.1 ∧
      (∀ a ∈ w8a.1, (0 : ℕ) < a.id ∧ a.id ≤ w8a.2.1.index) ∧
      (∀ a ∈ w8a.1, ∀ b ∈ w8b.1, a.id < b.id)) :=
  ⟨rfl, rfl,
    C8_round_ids ⟨100, 0, 0⟩ 0 envZero 1 w8a.1 w8a.2.1 w8a.2.2
      0 w8a.2.2 1 w8b.1 w8b.2.1 w8b.2.2 rfl rfl⟩

/-! ### C2: the cascade loop has no iteration cap -/

/-- An adversarial random source: every draw is 0.02, which always
selects item kind 1 in the weighted fill. -/
def env2 : Env := ⟨fun _ => 2 / 100, fun _ => Equiv.refl _⟩

theorem env2_valid : EnvValid env2 :=
  fun _ => ⟨by norm_num [env2], by norm_num [env2]⟩

theorem fill_const {gs : GameService} {e : Env} (hf : gs.fails ≤ 3)
    (he : ∀ n, e.rand n = 2 / 100) :
    fillItems gs (List.replicate 30 none) e =
      (List.replicate 30 1, gs, e.advance 30) := by
  unfold fillItems
  rw [if_neg (by omega)]
  unfold weightedFillCells
  dsimp only
  simp only [Prod.mk.injEq]
  refine ⟨?_, trivial, by simp⟩
  apply List.eq_replicate_iff.mpr
  constructor
  · simp
  · intro b hb
    rcases List.mem_map.mp hb with ⟨p, hp, rfl⟩
    have hp2 : p.2 = none := by
      have := List.mem_enum_iff_get?.mp hp
      exact List.eq_of_mem_replicate (List.get?_mem this)
    rw [hp2, he p.1]
    show findIndexLe (2 / 100) itemsRanges = 1
    norm_num [findIndexLe, itemsRanges]

theorem const_board_math :
    findCombinations (groupItems (List.replicate 30 (1 : ℤ))) = [(1, 100)] := by
  decide

theorem const_board_cleared :
    (moveItems (List.replicate 30 (1 : ℤ))
      (blowItems (List.replicate 30 (1 : ℤ)) [(1, 100)])).2 =
      List.replicate 30 none := by
  decide

theorem spinStep_adversarial {gs : GameService} {e : Env} (hf : gs.fails = 0)
    (he : ∀ n, e.rand n = 2 / 100) (prof balL : ℤ) :
    (spinStep gs e false 10 prof balL (List.replicate 30 none)).1.info.reward
        = 1000 ∧
      (spinStep gs e false 10 prof balL (List.replicate 30 none)).1.last
        = List.replicate 30 none ∧
      (spinStep gs e false 10 prof balL (List.replicate 30 none)).2.1.fails = 0 ∧
      (∀ n, (spinStep gs e false 10 prof balL
        (List.replicate 30 none)).2.2.rand n = 2 / 100) := by
  have hfill : fillItems { gs with index := gs.index + 1 }
      (List.replicate 30 none) e = (List.replicate 30 1, { gs with index := gs.index + 1 }, e.advance 30) :=
    fill_const (by simp [hf]) he
  simp only [spinStep, Bool.false_eq_true, if_false, hfill, const_board_math,
    const_board_cleared]
  refine ⟨by norm_num [calculateReward], trivial, hf, ?_⟩
  intro n
  show (e.advance 30).rand n = 2 / 100
  simp only [Env.advance]
  exact he (n + 30)

theorem adversarial_loop : ∀ (fuel : ℕ) (gs : GameService) (e : Env)
    (prof balL : ℤ) (acc : List RoundInfo), gs.fails = 0 →
    (∀ n, e.rand n = 2 / 100) →
    spinLoop fuel gs e false 10 prof balL (List.replicate 30 none) acc = none := by
  intro fuel
  induction fuel with
  | zero => intro gs e prof balL acc _ _; rfl
  | succ n ih =>
    intro gs e prof balL acc hf he
    obtain ⟨h1, h2, h3, h4⟩ := spinStep_adversarial hf he prof balL
    simp only [spinLoop]
    rw [if_pos (by rw [h1]; norm_num), h2]
    exact ih _ _ _ _ _ h3 h4

theorem adversarial_spin (fuel : ℕ) :
    spin ⟨100, 0, 0⟩ 10 env2 fuel = none := by
  simp only [spin]
  rw [show (decide ((10 : ℤ) ≤ 0) || decide ((⟨100, 0, 0⟩ : GameService).balance < 10))
    = false from rfl]
  rw [adversarial_loop fuel ⟨100, 0, 0⟩ env2 0 (100 - 10) [] rfl (fun _ => rfl)]

/-- C2 counterexample: it is not the case that every wager on every
engine state terminates for every well-formed random source: the source
that constantly draws 0.02 fills the whole board with kind 1 on every
cascade step, every step pays 100 times the bid, and the do/while loop
never exits - the code contains no safety iteration cap. -/
theorem C2_counterexample :
    ¬ (∀ (gs : GameService) (bid : ℤ) (e : Env), EnvValid e →
        ∃ fuel, (spin gs bid e fuel).isSome = true) := by
  intro h
  obtain ⟨fuel, hf⟩ := h ⟨100, 0, 0⟩ 10 env2 env2_valid
  rw [adversarial_spin fuel] at hf
  cases hf

theorem spinLoop_exit_shape : ∀ (fuel : ℕ) (gs : GameService) (e : Env)
    (idle : Bool) (bid profit balance : ℤ) (items : List (Option ℤ))
    (acc out : List RoundInfo) (gsf : GameService) (ef : Env) (balf : ℤ),
    (∀ r ∈ acc, 0 < r.info.reward) →
    spinLoop fuel gs e idle bid profit balance items acc =
      some (out, gsf, ef, balf) →
    out ≠ [] ∧ (∃ r, out.getLast? = some r ∧ r.info.reward ≤ 0) ∧
      (∀ r ∈ out.dropLast, 0 < r.info.reward) := by
  intro fuel
  induction fuel with
  | zero => intro gs e idle bid profit balance items acc out gsf ef balf _ hl; cases hl
  | succ n ih =>
    intro gs e idle bid profit balance items acc out gsf ef balf hacc hl
    simp only [spinLoop] at hl
    by_cases hr : (spinStep gs e idle bid profit balance items).1.info.reward > 0
    · rw [if_pos hr] at hl
      refine ih _ _ _ _ _ _ _ _ _ _ _ _ ?_ hl
      intro r hrm
      rcases List.mem_append.mp hrm with hrm | hrm
      · exact hacc r hrm
      · rw [List.mem_singleton] at hrm
        subst hrm
        exact hr
    · rw [if_neg hr] at hl
      injection hl with hl
      simp only [Prod.mk.injEq] at hl
      obtain ⟨ho, -, -, -⟩ := hl
      subst ho
      refine ⟨by simp, ⟨(spinStep gs e idle bid profit balance items).1,
        List.getLast?_concat _, by omega⟩, ?_⟩
      rw [List.dropLast_concat]
      exact hacc

/-- C2 (amended): a wager does terminate exactly at the first zero-reward
cascade step whenever one occurs - when spin returns, the round list is
nonempty, its last step's reward is not positive and every earlier step's
reward is positive - but the loop carries no safety iteration cap, so
termination is not guaranteed for every random source (see the
counterexample). -/
theorem C2_loop_exit (gs : GameService) (bid : ℤ) (e : Env) (fuel : ℕ)
    (rounds : List RoundInfo) (gs1 : GameService) (e1 : Env)
    (h : spin gs bid e fuel = some (rounds, gs1, e1)) :
    rounds ≠ [] ∧ (∃ r, rounds.getLast? = some r ∧ r.info.reward ≤ 0) ∧
      (∀ r ∈ rounds.dropLast, 0 < r.info.reward) := by
  obtain ⟨gsl, bal, hl, -⟩ := spin_inv h
  exact spinLoop_exit_shape _ _ _ _ _ _ _ _ _ _ _ _ _ (by intro r hr; cases hr) hl

/-- C2 witness: the loop-exit theorem applied to a concrete idle spin. -/
theorem C2_witness :
    spin ⟨100, 0, 0⟩ 0 envZero 1 = some (w8a.1, w8a.2.1, w8a.2.2) ∧
    (w8a.1 ≠ [] ∧ (∃ r, w8a.1.getLast? = some r ∧ r.info.reward ≤ 0) ∧
      (∀ r ∈ w8a.1.dropLast, 0 < r.info.reward)) :=
  ⟨rfl, C2_loop_exit ⟨100, 0, 0⟩ 0 envZero 1 w8a.1 w8a.2.1 w8a.2.2 rfl⟩

/-! ### C4: the pity counter and the showcase -/

theorem spinStep_fails_le {gs : GameService} {e : Env} {idle : Bool}
    {bid profit balance : ℤ} {items : List (Option ℤ)}
    (h : gs.fails ≤ 3 ∨ idle = true) :
    (spinStep gs e idle bid profit balance items).2.1.fails = gs.fails := by
  cases idle
  · have h3 : gs.fails ≤ 3 := by
      rcases h with h | h
      · exact h
      · cases h
    simp only [spinStep, Bool.false_eq_true, if_false, fillItems]
    rw [if_neg (by simp; omega)]
  · simp [spinStep]

theorem spinStep_fails_showcase {gs : GameService} {e : Env}
    {bid profit balance : ℤ} {items : List (Option ℤ)} (h : 3 < gs.fails) :
    (spinStep gs e false bid profit balance items).2.1.fails = 0 ∧
    (spinStep gs e false bid profit balance items).1.show_ =
      (weightedFillCells (applyShowcase items e).1 (applyShowcase items e).2).1 := by
  simp only [spinStep, Bool.false_eq_true, if_false, fillItems]
  rw [if_pos (by simp; omega)]
  exact ⟨rfl, rfl⟩

theorem spinFinish_fails (idle : Bool) (gs1 : GameService)
    (rounds : List RoundInfo) (bal : ℤ) :
    (spinFinish idle gs1 rounds bal).fails =
      if rounds.length = 1 then gs1.fails + 1 else 0 := by
  simp only [spinFinish]
  split
  · split <;> rfl
  · rfl

theorem spinLoop_fails : ∀ (fuel : ℕ) (gs : GameService) (e : Env) (idle : Bool)
    (bid profit balance : ℤ) (items : List (Option ℤ)) (acc out : List RoundInfo)
    (gsf : GameService) (ef : Env) (balf : ℤ), gs.fails ≤ 3 ∨ idle = true →
    spinLoop fuel gs e idle bid profit balance items acc =
      some (out, gsf, ef, balf) →
    gsf.fails = gs.fails := by
  intro fuel
  induction fuel with
  | zero => intro gs e idle bid profit balance items acc out gsf ef balf _ hl; cases hl
  | succ n ih =>
    intro gs e idle bid profit balance items acc out gsf ef balf hle hl
    simp only [spinLoop] at hl
    have hfs := @spinStep_fails_le gs e idle bid profit balance items hle
    by_cases hr : (spinStep gs e idle bid profit balance items).1.info.reward > 0
    · rw [if_pos hr] at hl
      have := ih _ _ _ _ _ _ _ _ _ _ _ _
        (by rcases hle with hle | hle
            · exact Or.inl (by omega)
            · exact Or.inr hle) hl
      omega
    · rw [if_neg hr] at hl
      injection hl with hl
      simp only [Prod.mk.injEq] at hl
      obtain ⟨-, hg, -, -⟩ := hl
      subst hg
      exact hfs

theorem spinLoop_acc_prefix : ∀ (fuel : ℕ) (gs : GameService) (e : Env)
    (idle : Bool) (bid profit balance : ℤ) (items : List (Option ℤ))
    (acc out : List RoundInfo) (gsf : GameService) (ef : Env) (balf : ℤ),
    spinLoop fuel gs e idle bid profit balance items acc =
      some (out, gsf, ef, balf) →
    ∃ suf, out = acc ++ suf := by
  intro fuel
  induction fuel with
  | zero => intro gs e idle bid profit balance items acc out gsf ef balf hl; cases hl
  | succ n ih =>
    intro gs e idle bid profit balance items acc out gsf ef balf hl
    simp only [spinLoop] at hl
    by_cases hr : (spinStep gs e idle bid profit balance items).1.info.reward > 0
    · rw [if_pos hr] at hl
      obtain ⟨suf, hsuf⟩ := ih _ _ _ _ _ _ _ _ _ _ _ _ hl
      exact ⟨(spinStep gs e idle bid profit balance items).1 :: suf,
        by rw [hsuf]; simp⟩
    · rw [if_neg hr] at hl
      injection hl with hl
      simp only [Prod.mk.injEq] at hl
      obtain ⟨ho, -, -, -⟩ := hl
      exact ⟨[(spinStep gs e idle bid profit balance items).1], ho.symm⟩

theorem spin_fails_update {gs : GameService} {bid : ℤ} {e : Env} {fuel : ℕ}
    {rounds : List RoundInfo} {gs1 : GameService} {e1 : Env}
    (hle : gs.fails ≤ 3 ∨ bid ≤ 0 ∨ gs.balance < bid)
    (h : spin gs bid e fuel = some (rounds, gs1, e1)) :
    gs1.fails = if rounds.length = 1 then gs.fails + 1 else 0 := by
  obtain ⟨gsl, bal, hl, hfin⟩ := spin_inv h
  have hcond : gs.fails ≤ 3 ∨
      (decide (bid ≤ 0) || decide (gs.balance < bid)) = true := by
    rcases hle with hle | hle | hle
    · exact Or.inl hle
    · exact Or.inr (by simp [hle])
    · exact Or.inr (by simp [hle])
  have hf := spinLoop_fails _ _ _ _ _ _ _ _ _ _ _ _ _ hcond hl
  rw [hfin, spinFinish_fails, hf]

theorem spin_showcase {gs : GameService} {bid : ℤ} {e : Env} {fuel : ℕ}
    {rounds : List RoundInfo} {gs1 : GameService} {e1 : Env}
    (hgt : 3 < gs.fails) (hb0 : 0 < bid) (hbb : bid ≤ gs.balance)
    (h : spin gs bid e fuel = some (rounds, gs1, e1)) :
    rounds.head?.map (fun r => r.show_) =
      some (weightedFillCells (applyShowcase (List.replicate 30 none) e).1
        (applyShowcase (List.replicate 30 none) e).2).1 ∧
    gs1.fails = if rounds.length = 1 then 1 else 0 := by
  have hidle : (decide (bid ≤ 0) || decide (gs.balance < bid)) = false := by
    rw [Bool.or_eq_false_iff]
    constructor <;> simp <;> omega
  obtain ⟨gsl, bal, hl, hfin⟩ := spin_inv h
  rw [hidle] at hl hfin
  obtain ⟨h0, hshow⟩ := @spinStep_fails_showcase gs e bid 0 (gs.balance - bid)
    (List.replicate 30 none) hgt
  cases fuel with
  | zero => cases hl
  | succ m =>
    simp only [spinLoop] at hl
    by_cases hr : (spinStep gs e false bid 0 (gs.balance - bid)
        (List.replicate 30 none)).1.info.reward > 0
    · rw [if_pos hr] at hl
      obtain ⟨suf, hsuf⟩ := spinLoop_acc_prefix _ _ _ _ _ _ _ _ _ _ _ _ _ hl
      have hfl : gsl.fails = 0 := by
        have := spinLoop_fails _ _ _ _ _ _ _ _ _ _ _ _ _ (Or.inl (by omega)) hl
        omega
      constructor
      · rw [hsuf]
        simp only [List.nil_append, List.singleton_append, List.head?_cons,
          Option.map_some']
        rw [hshow]
      · rw [hfin, spinFinish_fails, hfl]
    · rw [if_neg hr] at hl
      injection hl with hl
      simp only [Prod.mk.injEq] at hl
      obtain ⟨ho, hg, -, -⟩ := hl
      constructor
      · rw [← ho]
        simp only [List.nil_append, List.head?_cons, Option.map_some']
        rw [hshow]
      · rw [hfin, spinFinish_fails, ← hg, h0]

/-- C4: after every spin whose starting fails counter is at most 3, the
counter becomes old + 1 when the SpinResult has length exactly 1 and 0
otherwise; a valid-bid spin starting with fails above 3 takes the
showcase branch in its first fill (the first round's board is the
weighted fill of the showcase-seeded board) and resets the counter
before the final update, so it ends at 1 (length 1) or 0; and after 4
consecutive spins of length 1 from a fresh counter, the counter is 4 and
the 5th valid-bid spin applies the showcase placement. -/
theorem C4_pity_counter :
    (∀ (gs : GameService) (bid : ℤ) (e : Env) (fuel : ℕ)
      (rounds : List RoundInfo) (gs1 : GameService) (e1 : Env),
      gs.fails ≤ 3 ∨ bid ≤ 0 ∨ gs.balance < bid →
      spin gs bid e fuel = some (rounds, gs1, e1) →
      gs1.fails = if rounds.length = 1 then gs.fails + 1 else 0) ∧
    (∀ (gs : GameService) (bid : ℤ) (e : Env) (fuel : ℕ)
      (rounds : List RoundInfo) (gs1 : GameService) (e1 : Env),
      3 < gs.fails → 0 < bid → bid ≤ gs.balance →
      spin gs bid e fuel = some (rounds, gs1, e1) →
      (rounds.head?.map (fun r => r.show_) =
        some (weightedFillCells (applyShowcase (List.replicate 30 none) e).1
          (applyShowcase (List.replicate 30 none) e).2).1) ∧
      gs1.fails = if rounds.length = 1 then 1 else 0) ∧
    (∀ (gs0 : GameService) (b1 : ℤ) (e1 : Env) (f1 : ℕ)
      (r1 : List RoundInfo) (gs1 : GameService) (e1f : Env)
      (b2 : ℤ) (e2 : Env) (f2 : ℕ) (r2 : List RoundInfo) (gs2 : GameService)
      (e2f : Env) (b3 : ℤ) (e3 : Env) (f3 : ℕ) (r3 : List RoundInfo)
      (gs3 : GameService) (e3f : Env) (b4 : ℤ) (e4 : Env) (f4 : ℕ)
      (r4 : List RoundInfo) (gs4 : GameService) (e4f : Env) (b5 : ℤ)
      (e5 : Env) (f5 : ℕ) (r5 : List RoundInfo) (gs5 : GameService)
      (e5f : Env),
      gs0.fails = 0 →
      spin gs0 b1 e1 f1 = some (r1, gs1, e1f) → r1.length = 1 →
      spin gs1 b2 e2 f2 = some (r2, gs2, e2f) → r2.length = 1 →
      spin gs2 b3 e3 f3 = some (r3, gs3, e3f) → r3.length = 1 →
      spin gs3 b4 e4 f4 = some (r4, gs4, e4f) → r4.length = 1 →
      0 < b5 → b5 ≤ gs4.balance →
      spin gs4 b5 e5 f5 = some (r5, gs5, e5f) →
      gs4.fails = 4 ∧
      (r5.head?.map (fun r => r.show_) =
        some (weightedFillCells (applyShowcase (List.replicate 30 none) e5).1
          (applyShowcase (List.replicate 30 none) e5).2).1) ∧
      gs5.fails = if r5.length = 1 then 1 else 0) := by
  refine ⟨?_, ?_, ?_⟩
  · intro gs bid e fuel rounds gs1 e1 hle h
    exact spin_fails_update hle h

  · intro gs bid e fuel rounds gs1 e1 hgt hb0 hbb h
    exact spin_showcase hgt hb0 hbb h
  · intro gs0 b1 e1 f1 r1 gs1 e1f b2 e2 f2 r2 gs2 e2f b3 e3 f3 r3 gs3 e3f
      b4 e4 f4 r4 gs4 e4f b5 e5 f5 r5 gs5 e5f
      h0 hs1 hl1 hs2 hl2 hs3 hl3 hs4 hl4 hb5 hbb5 hs5
    have hf1 : gs1.fails = 1 := by
      rw [spin_fails_update (Or.inl (by omega)) hs1, if_pos hl1, h0]
    have hf2 : gs2.fails = 2 := by
      rw [spin_fails_update (Or.inl (by omega)) hs2, if_pos hl2, hf1]
    have hf3 : gs3.fails = 3 := by
      rw [spin_fails_update (Or.inl (by omega)) hs3, if_pos hl3, hf2]
    have hf4 : gs4.fails = 4 := by
      rw [spin_fails_update (Or.inl (by omega)) hs4, if_pos hl4, hf3]
    obtain ⟨hh, hf5⟩ := spin_showcase (by omega) hb5 hbb5 hs5
    exact ⟨hf4, hh, hf5⟩

/-- C4 witness: the fails-update rule applied to a concrete idle spin. -/
theorem C4_witness :
    (⟨100, 0, 0⟩ : GameService).fails ≤ 3 ∧
    spin ⟨100, 0, 0⟩ 0 envZero 1 = some (w8a.1, w8a.2.1, w8a.2.2) ∧
    w8a.2.1.fails =
      if w8a.1.length = 1 then (⟨100, 0, 0⟩ : GameService).fails + 1 else 0 :=
  ⟨by decide, rfl,
    C4_pity_counter.1 ⟨100, 0, 0⟩ 0 envZero 1 w8a.1 w8a.2.1 w8a.2.2
      (Or.inl (by decide)) rfl⟩

/-! ### C9: the cascade resolver preserves survivors and compacts -/

/-- The five cells of column c of a board, top row first. -/
def colSlice (last : List (Option ℤ)) (c : ℕ) : List (Option ℤ) :=
  (List.range 5).map (fun r => last.getD (c * 5 + r) none)

/-- The non-blown cells of column c of the input board, top row first. -/
def survivorsIn (sh : List ℤ) (blow : List ℕ) (c : ℕ) : List ℤ :=
  (List.range 5).filterMap (fun r =>
    if blow.contains (c * 5 + r) then none else some (sh.getD (c * 5 + r) 0))

/-- All cells of the column starting at lo that lie strictly above cell i
are empty. -/
def NoneAbove (l : List (Option ℤ)) (lo i : ℕ) : Prop :=
  ∀ k, lo ≤ k → k < i → l.getD k none = none

/-- What C9 states of moveItems: in every column, the non-empty cells
of the resulting board are a permutation of the non-blown cells of the
input column, and every empty cell lies above every non-empty cell. -/
def MovePreserved (sh : List ℤ) (blow : List ℕ) : Prop :=
  ∀ c, c < 6 →
    ((colSlice (moveItems sh blow).2 c).filterMap id).Perm
      (survivorsIn sh blow c) ∧
    (∀ r s, r < s → s < 5 →
      ((moveItems sh blow).2.getD (c * 5 + r) none).isSome = true →
      ((moveItems sh blow).2.getD (c * 5 + s) none).isSome = true)

theorem getD_set_self {α : Type _} (l : List α) (n : ℕ) (a d : α)
    (h : n < l.length) : (l.set n a).getD n d = a := by
  simp [List.getD_eq_getElem?_getD, List.getElem?_set_eq_of_lt a h]

theorem getD_set_ne {α : Type _} (l : List α) {n m : ℕ} (a d : α)
    (h : n ≠ m) : (l.set n a).getD m d = l.getD m d := by
  simp [List.getD_eq_getElem?_getD, List.getElem?_set_ne h]

theorem getD_set_cases (l : List (Option ℤ)) (p q : ℕ) (a : Option ℤ)
    (hq : q < l.length) :
    (l.set p a).getD q none = if p = q then a else l.getD q none := by
  split
  · next h => subst h; exact getD_set_self l p a none hq
  · next h => exact getD_set_ne l a none h

theorem count_set_opt : ∀ (l : List (Option ℤ)) (n : ℕ) (a v : Option ℤ),
    n < l.length →
    (l.set n a).count v + (if l.getD n none = v then 1 else 0)
      = l.count v + (if a = v then 1 else 0)
  | [], n, _, _, h => by simp at h
  | x :: t, 0, a, v, _ => by
    simp only [List.set_cons_zero, List.count_cons, List.getD_cons_zero,
      beq_iff_eq]
    split_ifs <;> omega
  | x :: t, n + 1, a, v, h => by
    simp only [List.set_cons_succ, List.count_cons, List.getD_cons_succ,
      beq_iff_eq]
    have := count_set_opt t n a v (by simpa using h)
    split_ifs at * <;> omega

theorem findSrc_eq_none {last : List (Option ℤ)} {lo : ℕ} :
    ∀ {i : ℕ}, findSrc last lo i = none →
      ∀ k, lo ≤ k → k < i → last.getD k none = none := by
  intro i
  induction i with
  | zero => intro _ k _ hk; omega
  | succ n ih =>
    intro h k hk1 hk2
    unfold findSrc at h
    by_cases hlo : n + 1 ≤ lo
    · omega
    · simp only [if_neg hlo] at h
      cases hg : last.getD n none with
      | some v => rw [hg] at h; cases h
      | none =>
        rw [hg] at h
        by_cases hkn : k = n
        · rw [hkn]; exact hg
        · exact ih h k hk1 (by omega)

theorem findSrc_none_of {last : List (Option ℤ)} {lo : ℕ} :
    ∀ {i : ℕ}, (∀ k, lo ≤ k → k < i → last.getD k none = none) →
      findSrc last lo i = none := by
  intro i
  induction i with
  | zero => intro _; rfl
  | succ n ih =>
    intro h
    unfold findSrc
    by_cases hlo : n + 1 ≤ lo
    · rw [if_pos hlo]
    · rw [if_neg hlo]
      rw [h n (by omega) (by omega)]
      exact ih (fun k hk1 hk2 => h k hk1 (by omega))

theorem gravityCell_cases (lo i : ℕ) (st : List (ℕ × ℕ) × List (Option ℤ)) :
    (st.2.getD i none ≠ none ∧ gravityCell lo i st = st) ∨
    (st.2.getD i none = none ∧ findSrc st.2 lo i = none ∧
      gravityCell lo i st = st) ∨
    (∃ j w, st.2.getD i none = none ∧ findSrc st.2 lo i = some j ∧
      lo ≤ j ∧ j < i ∧ st.2.getD j none = some w ∧
      gravityCell lo i st =
        (st.1 ++ [(j, i)], (st.2.set i (some w)).set j none)) := by
  cases hg : st.2.getD i none with
  | some v =>
    left
    refine ⟨by simp [hg], ?_⟩
    simp only [gravityCell, hg]
  | none =>
    cases hf : findSrc st.2 lo i with
    | none =>
      right; left
      refine ⟨rfl, rfl, ?_⟩
      simp only [gravityCell, hg, hf]
    | some j =>
      right; right
      obtain ⟨h1, h2, h3⟩ := findSrc_eq_some hf
      cases hw : st.2.getD j none with
      | none => exact absurd hw h3
      | some w =>
        refine ⟨j, w, rfl, rfl, h1, h2, hw, ?_⟩
        simp only [gravityCell, hg, hf, hw]

theorem gravityCell_length (lo i : ℕ) (st : List (ℕ × ℕ) × List (Option ℤ)) :
    (gravityCell lo i st).2.length = st.2.length := by
  rcases gravityCell_cases lo i st with ⟨-, h⟩ | ⟨-, -, h⟩ | ⟨j, w, -, -, -, -, -, h⟩ <;>
    rw [h] <;> simp

theorem gravityColumn_length (x : ℕ) (st : List (ℕ × ℕ) × List (Option ℤ)) :
    (gravityColumn x st).2.length = st.2.length := by
  rw [gravityColumn_eq, gravityCell_length, gravityCell_length,
    gravityCell_length, gravityCell_length]

theorem gravityCell_getD_outside {lo i : ℕ}
    {st : List (ℕ × ℕ) × List (Option ℤ)} {k : ℕ} (h : k < lo ∨ i < k) :
    (gravityCell lo i st).2.getD k none = st.2.getD k none := by
  rcases gravityCell_cases lo i st with ⟨-, hc⟩ | ⟨-, -, hc⟩ |
    ⟨j, w, -, -, hj1, hj2, -, hc⟩
  · rw [hc]
  · rw [hc]
  · rw [hc]
    dsimp only
    rw [getD_set_ne _ _ _ (by omega), getD_set_ne _ _ _ (by omega)]

theorem colSlice_set_outside {l : List (Option ℤ)} {x c : ℕ} {p : ℕ}
    {a : Option ℤ} (hp1 : x * 5 ≤ p) (hp2 : p < x * 5 + 5) (hc : c ≠ x) :
    colSlice (l.set p a) c = colSlice l c := by
  unfold colSlice
  apply List.map_congr_left
  intro r hr
  have hr5 : r < 5 := List.mem_range.mp hr
  exact getD_set_ne _ _ _ (by omega)

theorem colSlice_expand (m : List (Option ℤ)) (x : ℕ) :
    colSlice m x =
      [m.getD (x * 5) none, m.getD (x * 5 + 1) none, m.getD (x * 5 + 2) none,
        m.getD (x * 5 + 3) none, m.getD (x * 5 + 4) none] := by
  simp [colSlice, List.range_succ]

theorem colCount_set {l : List (Option ℤ)} {x : ℕ} {p : ℕ} {a : Option ℤ}
    (hlen : l.length = 30) (hx : x < 6) (hp1 : x * 5 ≤ p) (hp2 : p < x * 5 + 5)
    (v : Option ℤ) :
    (colSlice (l.set p a) x).count v + (if l.getD p none = v then 1 else 0)
      = (colSlice l x).count v + (if a = v then 1 else 0) := by
  rw [colSlice_expand, colSlice_expand,
    getD_set_cases l p (x * 5) a (by omega),
    getD_set_cases l p (x * 5 + 1) a (by omega),
    getD_set_cases l p (x * 5 + 2) a (by omega),
    getD_set_cases l p (x * 5 + 3) a (by omega),
    getD_set_cases l p (x * 5 + 4) a (by omega)]
  simp only [List.count_cons, List.count_nil, beq_iff_eq]
  have hp : p = x * 5 ∨ p = x * 5 + 1 ∨ p = x * 5 + 2 ∨ p = x * 5 + 3 ∨
      p = x * 5 + 4 := by omega
  rcases hp with rfl | rfl | rfl | rfl | rfl
  · rw [if_pos (by omega : x * 5 = x * 5),
      if_neg (by omega : ¬ x * 5 = x * 5 + 1),
      if_neg (by omega : ¬ x * 5 = x * 5 + 2),
      if_neg (by omega : ¬ x * 5 = x * 5 + 3),
      if_neg (by omega : ¬ x * 5 = x * 5 + 4)]
    split_ifs <;> omega
  · rw [if_neg (by omega : ¬ x * 5 + 1 = x * 5),
      if_pos (by omega : x * 5 + 1 = x * 5 + 1),
      if_neg (by omega : ¬ x * 5 + 1 = x * 5 + 2),
      if_neg (by omega : ¬ x * 5 + 1 = x * 5 + 3),
      if_neg (by omega : ¬ x * 5 + 1 = x * 5 + 4)]
    split_ifs <;> omega
  · rw [if_neg (by omega : ¬ x * 5 + 2 = x * 5),
      if_neg (by omega : ¬ x * 5 + 2 = x * 5 + 1),
      if_pos (by omega : x * 5 + 2 = x * 5 + 2),
      if_neg (by omega : ¬ x * 5 + 2 = x * 5 + 3),
      if_neg (by omega : ¬ x * 5 + 2 = x * 5 + 4)]
    split_ifs <;> omega
  · rw [if_neg (by omega : ¬ x * 5 + 3 = x * 5),
      if_neg (by omega : ¬ x * 5 + 3 = x * 5 + 1),
      if_neg (by omega : ¬ x * 5 + 3 = x * 5 + 2),
      if_pos (by omega : x * 5 + 3 = x * 5 + 3),
      if_neg (by omega : ¬ x * 5 + 3 = x * 5 + 4)]
    split_ifs <;> omega
  · rw [if_neg (by omega : ¬ x * 5 + 4 = x * 5),
      if_neg (by omega : ¬ x * 5 + 4 = x * 5 + 1),
      if_neg (by omega : ¬ x * 5 + 4 = x * 5 + 2),
      if_neg (by omega : ¬ x * 5 + 4 = x * 5 + 3),
      if_pos (by omega : x * 5 + 4 = x * 5 + 4)]
    split_ifs <;> omega

theorem gravityCell_colCount {x i : ℕ} {st : List (ℕ × ℕ) × List (Option ℤ)}
    (hx : x < 6) (hlen : st.2.length = 30) (hi1 : x * 5 < i)
    (hi2 : i ≤ x * 5 + 4) (c : ℕ) (v : Option ℤ) :
    (colSlice (gravityCell (x * 5) i st).2 c).count v
      = (colSlice st.2 c).count v := by
  rcases gravityCell_cases (x * 5) i st with ⟨-, hc⟩ | ⟨-, -, hc⟩ |
    ⟨j, w, hgi, -, hj1, hj2, hgj, hc⟩
  · rw [hc]
  · rw [hc]
  · rw [hc]
    dsimp only
    by_cases hcx : c = x
    · subst hcx
      have e1 := colCount_set (l := st.2.set i (some w)) (p := j) (a := none)
        (by simp [hlen]) hx (by omega) (by omega) v
      have e2 := colCount_set (l := st.2) (p := i) (a := some w)
        hlen hx (by omega) (by omega) v
      rw [getD_set_ne _ _ _ (by omega), hgj] at e1
      rw [hgi] at e2
      by_cases h2 : (none : Option ℤ) = v
      · have h1 : ¬ (some w = v) := by rw [← h2]; simp
        rw [if_neg h1, if_pos h2] at e1 e2
        omega
      · by_cases h1 : some w = v
        · rw [if_pos h1, if_neg h2] at e1 e2
          omega
        · rw [if_neg h1, if_neg h2] at e1 e2
          omega
    · rw [colSlice_set_outside (by omega) (by omega) hcx,
        colSlice_set_outside (by omega) (by omega) hcx]

theorem gravityColumn_colCount {x : ℕ} {st : List (ℕ × ℕ) × List (Option ℤ)}
    (hx : x < 6) (hlen : st.2.length = 30) (c : ℕ) (v : Option ℤ) :
    (colSlice (gravityColumn x st).2 c).count v = (colSlice st.2 c).count v := by
  rw [gravityColumn_eq]
  set s4 := gravityCell (x * 5) (x * 5 + 4) st with hs4
  set s3 := gravityCell (x * 5) (x * 5 + 3) s4 with hs3
  set s2 := gravityCell (x * 5) (x * 5 + 2) s3 with hs2
  have hl4 : s4.2.length = 30 := by
    rw [hs4, gravityCell_length]
    exact hlen
  have hl3 : s3.2.length = 30 := by
    rw [hs3, gravityCell_length]
    exact hl4
  have hl2 : s2.2.length = 30 := by
    rw [hs2, gravityCell_length]
    exact hl3
  rw [gravityCell_colCount hx hl2 (by omega) (by omega)]
  rw [hs2, gravityCell_colCount hx hl3 (by omega) (by omega)]
  rw [hs3, gravityCell_colCount hx hl4 (by omega) (by omega)]
  rw [hs4, gravityCell_colCount hx hlen (by omega) (by omega)]

theorem gravityCell_post {lo i : ℕ} {st : List (ℕ × ℕ) × List (Option ℤ)}
    (hilen : i < st.2.length)
    (h : (gravityCell lo i st).2.getD i none = none) :
    NoneAbove (gravityCell lo i st).2 lo i := by
  rcases gravityCell_cases lo i st with ⟨hne, hc⟩ | ⟨-, hf, hc⟩ |
    ⟨j, w, -, -, hj1, hj2, -, hc⟩
  · rw [hc] at h
    exact absurd h hne
  · rw [hc]
    exact fun k hk1 hk2 => findSrc_eq_none hf k hk1 hk2
  · rw [hc] at h
    dsimp only at h
    rw [getD_set_ne _ _ _ (by omega),
      getD_set_self _ _ _ _ (by simpa using hilen)] at h
    cases h

theorem gravityCell_stable {lo i i' : ℕ} {st : List (ℕ × ℕ) × List (Option ℤ)}
    (hii : i < i') (hloi : lo ≤ i) (hna : NoneAbove st.2 lo i')
    (hni : st.2.getD i' none = none) : gravityCell lo i st = st := by
  have hgi : st.2.getD i none = none := hna i hloi hii
  have hfs : findSrc st.2 lo i = none :=
    findSrc_none_of (fun k hk1 hk2 => hna k hk1 (by omega))
  simp only [gravityCell, hgi, hfs]

theorem gravityColumn_getD_outside {x : ℕ}
    {st : List (ℕ × ℕ) × List (Option ℤ)} {k : ℕ}
    (h : k < x * 5 ∨ x * 5 + 4 < k) :
    (gravityColumn x st).2.getD k none = st.2.getD k none := by
  rw [gravityColumn_eq]
  rw [gravityCell_getD_outside (by omega), gravityCell_getD_outside (by omega),
    gravityCell_getD_outside (by omega), gravityCell_getD_outside (by omega)]

theorem gravityColumn_compacted {x : ℕ} {st : List (ℕ × ℕ) × List (Option ℤ)}
    (hx : x < 6) (hlen : st.2.length = 30) :
    ∀ i', x * 5 < i' → i' ≤ x * 5 + 4 →
      (gravityColumn x st).2.getD i' none = none →
      NoneAbove (gravityColumn x st).2 (x * 5) i' := by
  rw [gravityColumn_eq]
  set s4 := gravityCell (x * 5) (x * 5 + 4) st with hs4
  set s3 := gravityCell (x * 5) (x * 5 + 3) s4 with hs3
  set s2 := gravityCell (x * 5) (x * 5 + 2) s3 with hs2
  set s1 := gravityCell (x * 5) (x * 5 + 1) s2 with hs1
  have hl4 : s4.2.length = 30 := by rw [hs4, gravityCell_length]; exact hlen
  have hl3 : s3.2.length = 30 := by rw [hs3, gravityCell_length]; exact hl4
  have hl2 : s2.2.length = 30 := by rw [hs2, gravityCell_length]; exact hl3
  intro i' h1 h2 hn
  have hcase : i' = x * 5 + 1 ∨ i' = x * 5 + 2 ∨ i' = x * 5 + 3 ∨
      i' = x * 5 + 4 := by omega
  rcases hcase with rfl | rfl | rfl | rfl
  · exact hs1 ▸ gravityCell_post (by omega) (hs1 ▸ hn)
  · have hn2 : s2.2.getD (x * 5 + 2) none = none := by
      rw [← @gravityCell_getD_outside (x * 5) (x * 5 + 1) s2 _
        (Or.inr (by omega)), ← hs1]
      exact hn
    have hna2 : NoneAbove s2.2 (x * 5) (x * 5 + 2) :=
      hs2 ▸ gravityCell_post (by omega) (hs2 ▸ hn2)
    have hstable : s1 = s2 := by
      rw [hs1]
      exact gravityCell_stable (by omega) (by omega) hna2 hn2
    rw [hstable]
    exact hna2
  · have hn3 : s3.2.getD (x * 5 + 3) none = none := by
      rw [← @gravityCell_getD_outside (x * 5) (x * 5 + 2) s3 _
        (Or.inr (by omega)), ← hs2]
      rw [← @gravityCell_getD_outside (x * 5) (x * 5 + 1) s2 _
        (Or.inr (by omega)), ← hs1]
      exact hn
    have hna3 : NoneAbove s3.2 (x * 5) (x * 5 + 3) :=
      hs3 ▸ gravityCell_post (by omega) (hs3 ▸ hn3)
    have hst2 : s2 = s3 := by
      rw [hs2]
      exact gravityCell_stable (by omega) (by omega) hna3 hn3
    have hst1 : s1 = s2 := by
      rw [hs1, hst2]
      exact gravityCell_stable (by omega) (by omega) hna3 hn3
    rw [hst1, hst2]
    exact hna3
  · have hn4 : s4.2.getD (x * 5 + 4) none = none := by
      rw [← @gravityCell_getD_outside (x * 5) (x * 5 + 3) s4 _
        (Or.inr (by omega)), ← hs3]
      rw [← @gravityCell_getD_outside (x * 5) (x * 5 + 2) s3 _
        (Or.inr (by omega)), ← hs2]
      rw [← @gravityCell_getD_outside (x * 5) (x * 5 + 1) s2 _
        (Or.inr (by omega)), ← hs1]
      exact hn
    have hna4 : NoneAbove s4.2 (x * 5) (x * 5 + 4) :=
      hs4 ▸ gravityCell_post (by omega) (hs4 ▸ hn4)
    have hst3 : s3 = s4 := by
      rw [hs3]
      exact gravityCell_stable (by omega) (by omega) hna4 hn4
    have hst2 : s2 = s3 := by
      rw [hs2, hst3]
      exact gravityCell_stable (by omega) (by omega) hna4 hn4
    have hst1 : s1 = s2 := by
      rw [hs1, hst2, hst3]
      exact gravityCell_stable (by omega) (by omega) hna4 hn4
    rw [hst1, hst2, hst3]
    exact hna4

theorem count_filterMap_eq {α : Type _} (g : α → Option ℤ) :
    ∀ (l : List α) (z : ℤ),
      (l.filterMap g).count z = (l.map g).count (some z) := by
  intro l
  induction l with
  | nil => intro z; rfl
  | cons a t ih =>
    intro z
    cases hg : g a with
    | none =>
      rw [List.filterMap_cons_none hg, List.map_cons, hg, List.count_cons]
      simp [ih]
    | some b =>
      rw [List.filterMap_cons_some hg, List.map_cons, hg, List.count_cons,
        List.count_cons]
      simp [ih]

theorem getD_enum_map (sh : List ℤ) (f : ℕ × ℤ → Option ℤ) {k : ℕ}
    (hk : k < sh.length) :
    (sh.enum.map f).getD k none = f (k, sh.getD k 0) := by
  rw [List.getD_eq_getElem?_getD, List.getElem?_map, List.getElem?_enum]
  rw [List.getElem?_eq_getElem hk]
  rw [List.getD_eq_getElem?_getD, List.getElem?_eq_getElem hk]
  rfl

theorem colSlice_last0 {sh : List ℤ} {blow : List ℕ} {c : ℕ}
    (hlen : sh.length = 30) (hc : c < 6) :
    colSlice (sh.enum.map (fun p =>
      if blow.contains p.1 then none else some p.2)) c =
    (List.range 5).map (fun r =>
      if blow.contains (c * 5 + r) then none else some (sh.getD (c * 5 + r) 0)) := by
  unfold colSlice
  apply List.map_congr_left
  intro r hr
  have hr5 : r < 5 := List.mem_range.mp hr
  exact getD_enum_map sh _ (by omega)

theorem moveItems_colCount {sh : List ℤ} {blow : List ℕ}
    (hlen : sh.length = 30) (c : ℕ) (v : Option ℤ) :
    (colSlice (moveItems sh blow).2 c).count v =
      (colSlice (sh.enum.map (fun p =>
        if blow.contains p.1 then none else some p.2)) c).count v := by
  rw [moveItems_eq]
  set i0 : List (ℕ × ℕ) × List (Option ℤ) :=
    ([], sh.enum.map (fun p => if blow.contains p.1 then none else some p.2))
    with hi0
  set t0 := gravityColumn 0 i0 with ht0
  set t1 := gravityColumn 1 t0 with ht1
  set t2 := gravityColumn 2 t1 with ht2
  set t3 := gravityColumn 3 t2 with ht3
  set t4 := gravityColumn 4 t3 with ht4
  have li : i0.2.length = 30 := by simp [hi0, hlen]
  have l0 : t0.2.length = 30 := by rw [ht0, gravityColumn_length]; exact li
  have l1 : t1.2.length = 30 := by rw [ht1, gravityColumn_length]; exact l0
  have l2 : t2.2.length = 30 := by rw [ht2, gravityColumn_length]; exact l1
  have l3 : t3.2.length = 30 := by rw [ht3, gravityColumn_length]; exact l2
  have l4 : t4.2.length = 30 := by rw [ht4, gravityColumn_length]; exact l3
  rw [gravityColumn_colCount (by omega) l4 c v, ht4,
    gravityColumn_colCount (by omega) l3 c v, ht3,
    gravityColumn_colCount (by omega) l2 c v, ht2,
    gravityColumn_colCount (by omega) l1 c v, ht1,
    gravityColumn_colCount (by omega) l0 c v, ht0,
    gravityColumn_colCount (by omega) li c v]

theorem moveItems_compacted {sh : List ℤ} {blow : List ℕ}
    (hlen : sh.length = 30) :
    ∀ c, c < 6 → ∀ i', c * 5 < i' → i' ≤ c * 5 + 4 →
      (moveItems sh blow).2.getD i' none = none →
      NoneAbove (moveItems sh blow).2 (c * 5) i' := by
  rw [moveItems_eq]
  set i0 : List (ℕ × ℕ) × List (Option ℤ) :=
    ([], sh.enum.map (fun p => if blow.contains p.1 then none else some p.2))
    with hi0
  set t0 := gravityColumn 0 i0 with ht0
  set t1 := gravityColumn 1 t0 with ht1
  set t2 := gravityColumn 2 t1 with ht2
  set t3 := gravityColumn 3 t2 with ht3
  set t4 := gravityColumn 4 t3 with ht4
  have li : i0.2.length = 30 := by simp [hi0, hlen]
  have l0 : t0.2.length = 30 := by rw [ht0, gravityColumn_length]; exact li
  have l1 : t1.2.length = 30 := by rw [ht1, gravityColumn_length]; exact l0
  have l2 : t2.2.length = 30 := by rw [ht2, gravityColumn_length]; exact l1
  have l3 : t3.2.length = 30 := by rw [ht3, gravityColumn_length]; exact l2
  have l4 : t4.2.length = 30 := by rw [ht4, gravityColumn_length]; exact l3
  intro c hc i' h1 h2 hn
  interval_cases c
  · -- column 0
    have hloc : ∀ k, k < 5 → (gravityColumn 5 t4).2.getD k none = t0.2.getD k none := by
      intro k hk
      rw [gravityColumn_getD_outside (Or.inl (by omega)),
        ht4,
        gravityColumn_getD_outside (Or.inl (by omega)),
        ht3,
        gravityColumn_getD_outside (Or.inl (by omega)),
        ht2,
        gravityColumn_getD_outside (Or.inl (by omega)),
        ht1,
        gravityColumn_getD_outside (Or.inl (by omega))]
    have hnc : t0.2.getD i' none = none := by
      rw [← hloc i' (by omega)]
      exact hn
    have hcomp : NoneAbove t0.2 (0 * 5) i' := by
      rw [ht0]
      refine gravityColumn_compacted (by omega) li i' (by omega) (by omega) ?_
      rw [← ht0]
      exact hnc
    intro k hk1 hk2
    rw [hloc k (by omega)]
    exact hcomp k hk1 hk2
  · -- column 1
    have hloc : ∀ k, k < 10 → (gravityColumn 5 t4).2.getD k none = t1.2.getD k none := by
      intro k hk
      rw [gravityColumn_getD_outside (Or.inl (by omega)),
        ht4,
        gravityColumn_getD_outside (Or.inl (by omega)),
        ht3,
        gravityColumn_getD_outside (Or.inl (by omega)),
        ht2,
        gravityColumn_getD_outside (Or.inl (by omega))]
    have hnc : t1.2.getD i' none = none := by
      rw [← hloc i' (by omega)]
      exact hn
    have hcomp : NoneAbove t1.2 (1 * 5) i' := by
      rw [ht1]
      refine gravityColumn_compacted (by omega) l0 i' (by omega) (by omega) ?_
      rw [← ht1]
      exact hnc
    intro k hk1 hk2
    rw [hloc k (by omega)]
    exact hcomp k hk1 hk2
  · -- column 2
    have hloc : ∀ k, k < 15 → (gravityColumn 5 t4).2.getD k none = t2.2.getD k none := by
      intro k hk
      rw [gravityColumn_getD_outside (Or.inl (by omega)),
        ht4,
        gravityColumn_getD_outside (Or.inl (by omega)),
        ht3,
        gravityColumn_getD_outside (Or.inl (by omega))]
    have hnc : t2.2.getD i' none = none := by
      rw [← hloc i' (by omega)]
      exact hn
    have hcomp : NoneAbove t2.2 (2 * 5) i' := by
      rw [ht2]
      refine gravityColumn_compacted (by omega) l1 i' (by omega) (by omega) ?_
      rw [← ht2]
      exact hnc
    intro k hk1 hk2
    rw [hloc k (by omega)]
    exact hcomp k hk1 hk2
  · -- column 3
    have hloc : ∀ k, k < 20 → (gravityColumn 5 t4).2.getD k none = t3.2.getD k none := by
      intro k hk
      rw [gravityColumn_getD_outside (Or.inl (by omega)),
        ht4,
        gravityColumn_getD_outside (Or.inl (by omega))]
    have hnc : t3.2.getD i' none = none := by
      rw [← hloc i' (by omega)]
      exact hn
    have hcomp : NoneAbove t3.2 (3 * 5) i' := by
      rw [ht3]
      refine gravityColumn_compacted (by omega) l2 i' (by omega) (by omega) ?_
      rw [← ht3]
      exact hnc
    intro k hk1 hk2
    rw [hloc k (by omega)]
    exact hcomp k hk1 hk2
  · -- column 4
    have hloc : ∀ k, k < 25 → (gravityColumn 5 t4).2.getD k none = t4.2.getD k none := by
      intro k hk
      rw [gravityColumn_getD_outside (Or.inl (by omega))]
    have hnc : t4.2.getD i' none = none := by
      rw [← hloc i' (by omega)]
      exact hn
    have hcomp : NoneAbove t4.2 (4 * 5) i' := by
      rw [ht4]
      refine gravityColumn_compacted (by omega) l3 i' (by omega) (by omega) ?_
      rw [← ht4]
      exact hnc
    intro k hk1 hk2
    rw [hloc k (by omega)]
    exact hcomp k hk1 hk2
  · -- column 5
    have hcomp : NoneAbove (gravityColumn 5 t4).2 (5 * 5) i' :=
      gravityColumn_compacted (by omega) l4 i' (by omega) (by omega) hn
    exact hcomp

/-- C9: moveItems only relocates symbols downward within their own column:
for every column, the non-empty cells of the resulting board are a
permutation of the column's surviving (non-blown) input symbols, and the
column is compacted — every empty cell lies above every occupied cell. -/
theorem C9_move_preserved (sh : List ℤ) (blow : List ℕ)
    (hlen : sh.length = 30) : MovePreserved sh blow := by
  intro c hc
  constructor
  · rw [List.perm_iff_count]
    intro z
    rw [count_filterMap_eq id _ z, List.map_id,
      moveItems_colCount hlen c (some z), colSlice_last0 hlen hc]
    simp only [survivorsIn]
    rw [count_filterMap_eq _ _ z]
  · intro r s hrs hs5 hsome
    by_contra hns
    have hn : (moveItems sh blow).2.getD (c * 5 + s) none = none :=
      Option.not_isSome_iff_eq_none.mp (by simpa using hns)
    have hna :=
      moveItems_compacted hlen c hc (c * 5 + s) (by omega) (by omega) hn
    have hr0 := hna (c * 5 + r) (by omega) (by omega)
    rw [hr0] at hsome
    simp at hsome

theorem C9_witness :
    MovePreserved
      [0, 1, 2, 3, 4, 5, 6, 7, 8, 9, 0, 1, 2, 3, 4,
       5, 6, 7, 8, 9, 0, 1, 2, 3, 4, 5, 6, 7, 8, 9] [4, 7, 12] :=
  C9_move_preserved _ _ (by decide)
